import Mathlib

/-!
Shallow embedding of the dedup pipeline in
`src/backend/services/dedup_logic.py`.

Records of the pandas DataFrame are modelled as a `List Record` with a
default positional index (the DataFrames of this pipeline come straight
from a BigQuery fetch, so the pandas index is the positional RangeIndex,
and `row.name` / `df.index[i]` are the list positions used here).
Nullable DataFrame columns become `Option` fields.  Machine floats become
exact rationals `ℚ`.  The external collaborators (embedding model, Gemini
adjudicators) are parameters: the cosine-similarity matrix computed from
the embeddings is a function `ℕ → ℕ → ℚ` over positions of the
not-yet-grouped records, and each adjudicator call is an oracle keyed by
the group id, returning `none` when the call raises or (for the scoring
variant) its response cannot be parsed as a float — both failure shapes
lead to the identical `continue` / `pass` behaviour in the source.
String handling mirrors Python `str` operations on their ASCII range.
-/

/-- Python's `\s` whitespace class (`re` module, ASCII range), also the
split class of `str.split()` used by `normalize_text`. -/
def pyIsSpace (c : Char) : Bool :=
  c = ' ' || c = '\t' || c = '\n' || c = '\r' || c = '\x0b' || c = '\x0c'

/-- Helper of `pyTokens`: walks the character list accumulating the
current (reversed) token, mirroring Python `str.split()` which splits on
whitespace runs and drops empty pieces. -/
def tokensAux : List Char → List Char → List String
  | [], cur => if cur.isEmpty then [] else [String.mk cur.reverse]
  | c :: cs, cur =>
    if pyIsSpace c then
      if cur.isEmpty then tokensAux cs [] else String.mk cur.reverse :: tokensAux cs []
    else tokensAux cs (c :: cur)

/-- Python `text.split()` (no separator argument). -/
def pyTokens (s : String) : List String := tokensAux s.data []

/-- Python `' '.join(tokens)`. -/
def joinSpace : List String → String
  | [] => ""
  | [t] => t
  | t :: ts => t ++ " " ++ joinSpace ts

/-- Python `str.lower()` on the ASCII range. -/
def pyLower (s : String) : String := String.mk (s.data.map Char.toLower)

/-- Does `needle` match at the head of `hay`?  Helper of `hasSub`. -/
def subAt : List Char → List Char → Bool
  | [], _ => true
  | _ :: _, [] => false
  | n :: ns, h :: hs => n = h && subAt ns hs

/-- Python's substring containment `needle in hay` for strings. -/
def hasSub (needle : List Char) : List Char → Bool
  | [] => needle.isEmpty
  | h :: hs => subAt needle (h :: hs) || hasSub needle hs

/-- `normalize_text` (dedup_logic.py:7): lowercase, replace every
character outside `[a-z0-9\s]` by a space, collapse whitespace. -/
def normalize_text (text : String) : String :=
  if text = "" then ""
  else
    let lowered := String.mk (text.data.map Char.toLower)
    let cleaned := String.mk (lowered.data.map (fun c =>
      if ('a' ≤ c ∧ c ≤ 'z') ∨ ('0' ≤ c ∧ c ≤ '9') ∨ pyIsSpace c then c else ' '))
    joinSpace (pyTokens cleaned)

/-- `set(text.split())` — the whitespace-split token set of a text. -/
def tokenSet (s : String) : Finset String := (pyTokens s).toFinset

/-- One record of the DataFrame: the natural-key and description columns
the pipeline reads, plus the annotation columns it writes. -/
structure Record where
  item_code : Option String
  barcode : Option String
  DESCR : Option String
  DESCR60 : Option String
  group_id : Option String
  match_type : Option String
  confidence : Option ℚ
  review_required : Bool
deriving DecidableEq

/-- `df.loc[i] = f(df.loc[i])` — modify the record at one position. -/
def modifyAt (f : Record → Record) : ℕ → List Record → List Record
  | _, [] => []
  | 0, r :: rs => f r :: rs
  | n + 1, r :: rs => r :: modifyAt f n rs

/-- Member count of a `group_id` value, as in
`df['group_id'].value_counts()` / boolean-mask row counting. -/
def groupCount (df : List Record) (g : String) : ℕ :=
  df.countP (fun r => decide (r.group_id = some g))

/-- First half of `ExactMatchStep.process` (dedup_logic.py:38): every row
whose non-null `item_code` value occurs at least twice in the frame gets
the deterministic group `exact_item_<value>`; pandas `duplicated(...,
keep=False)` marks the value's every occurrence and `groupby` drops null
keys. -/
def itemPass (df : List Record) : List Record :=
  df.map (fun r =>
    match r.item_code with
    | none => r
    | some v =>
      if 2 ≤ df.countP (fun x => decide (x.item_code = some v)) then
        { r with group_id := some ("exact_item_" ++ v),
                 match_type := some "exact_item_code" }
      else r)

/-- Second half of `ExactMatchStep.process` (dedup_logic.py:46): among the
rows still ungrouped (`group_id` null), every row whose non-null `barcode`
value occurs at least twice within those rows gets the group
`exact_barcode_<value>`. -/
def barcodePass (df : List Record) : List Record :=
  df.map (fun r =>
    if r.group_id = none then
      match r.barcode with
      | none => r
      | some v =>
        if 2 ≤ df.countP (fun x => decide (x.group_id = none ∧ x.barcode = some v)) then
          { r with group_id := some ("exact_barcode_" ++ v),
                   match_type := some "exact_barcode" }
        else r
    else r)

/-- `ExactMatchStep.process` (dedup_logic.py:27). -/
def exactMatchProcess (df : List Record) : List Record :=
  barcodePass (itemPass df)

/-- Final cleanup of `DedupAgent.run` (dedup_logic.py:299): any
`group_id` with exactly one member has `group_id` and `match_type`
cleared. -/
def sanitize (df : List Record) : List Record :=
  df.map (fun r =>
    match r.group_id with
    | none => r
    | some g =>
      if groupCount df g = 1 then { r with group_id := none, match_type := none }
      else r)

/-- Lexical word-overlap score of `FuzzyMatchStep.process`
(dedup_logic.py:124): `|set1 ∩ set2| / min(|set1|, |set2|)`, `0` if either
token set is empty. -/
def overlapScore (t1 t2 : String) : ℚ :=
  let s1 := tokenSet t1
  let s2 := tokenSet t2
  if s1 = ∅ ∨ s2 = ∅ then 0
  else ((s1 ∩ s2).card : ℚ) / (min s1.card s2.card : ℚ)

/-- The fused hybrid score (dedup_logic.py:131):
`0.7 * cosine + 0.3 * overlap`, for anchor `a` and candidate `j` in
remaining-row positions.  `texts` is the list of normalized texts of the
remaining rows and `sim` the cosine-similarity matrix of their
embeddings. -/
def fusedScore (sim : ℕ → ℕ → ℚ) (texts : List String) (a j : ℕ) : ℚ :=
  0.7 * sim a j + 0.3 * overlapScore (texts.getD a "") (texts.getD j "")

/-- The normalized text embedded for a record (dedup_logic.py:93):
`normalize_text(DESCR.fillna('') + " " + DESCR60.fillna(''))`. -/
def textOf (r : Record) : String :=
  normalize_text ((r.DESCR.getD "") ++ " " ++ (r.DESCR60.getD ""))

/-- One assignment performed by the fuzzy stage (dedup_logic.py:134):
`anchor` and `target` are remaining-row positions, `targetOrig` the
original frame position written (`remaining.index[sim_idx]`), `gid` the
group id `f"fuzzy_{remaining.iloc[actual_idx].name}"` and `score` the
fused score stored as confidence. -/
structure WriteEvent where
  anchor : ℕ
  target : ℕ
  targetOrig : ℕ
  gid : String
  score : ℚ
deriving DecidableEq

/-- Build the `WriteEvent` of a confirmed candidate `j` of anchor `a`,
where `ridx` maps remaining-row positions back to frame positions. -/
def mkEv (ridx : List ℕ) (a j : ℕ) (score : ℚ) : WriteEvent :=
  ⟨a, j, ridx.getD j 0, "fuzzy_" ++ toString (ridx.getD a 0), score⟩

/-- Apply one fuzzy assignment to the frame: set `group_id`,
`match_type = 'fuzzy_hybrid'` and `confidence` of the target row
(dedup_logic.py:137). -/
def applyEvent (df : List Record) (e : WriteEvent) : List Record :=
  modifyAt (fun r =>
    { r with group_id := some e.gid, match_type := some "fuzzy_hybrid",
             confidence := some e.score }) e.targetOrig df

/-- The evolving state of `FuzzyMatchStep.process`: the `visited` set, the
frame being annotated, and (as a proof artifact) the chronological log of
assignments performed. -/
structure FuzzyState where
  visited : List ℕ
  df : List Record
  log : List WriteEvent
deriving DecidableEq

/-- Body of the candidate loop (dedup_logic.py:121): skip the anchor
itself, fuse the scores, and on `final_score > threshold` mark both rows
visited and annotate the target row. -/
def innerStep (th : ℚ) (sim : ℕ → ℕ → ℚ) (texts : List String) (ridx : List ℕ)
    (a : ℕ) (s : FuzzyState) (j : ℕ) : FuzzyState :=
  if j = a then s
  else
    if th < fusedScore sim texts a j then
      { visited := j :: a :: s.visited,
        df := applyEvent s.df (mkEv ridx a j (fusedScore sim texts a j)),
        log := s.log ++ [mkEv ridx a j (fusedScore sim texts a j)] }
    else s

/-- Body of the per-row loop (dedup_logic.py:112): rows already visited
are skipped as anchors; otherwise the candidates are the remaining-row
positions whose cosine similarity to the anchor strictly exceeds
`threshold - 0.15` (`np.where` keeps index order), and the candidate loop
runs over them. -/
def anchorStep (th : ℚ) (sim : ℕ → ℕ → ℚ) (texts : List String) (ridx : List ℕ)
    (n : ℕ) (s : FuzzyState) (a : ℕ) : FuzzyState :=
  if a ∈ s.visited then s
  else ((List.range n).filter (fun j => decide (th - 0.15 < sim a j))).foldl
    (innerStep th sim texts ridx a) s

/-- Python `range(0, n, c)`: the chunk start offsets. -/
def chunkStarts (c n : ℕ) : List ℕ := (List.range ((n + c - 1) / c)).map (· * c)

/-- The anchor positions of the chunk starting at `i`:
`actual_idx = i + chunk_row_idx` for `chunk_row_idx` below
`min(i + c, n) - i` (dedup_logic.py:106,112). -/
def chunkRows (c n i : ℕ) : List ℕ := (List.range (min (i + c) n - i)).map (i + ·)

/-- All anchor positions in iteration order: the chunked outer loop of
dedup_logic.py:105 flattened. -/
def chunkIndices (c n : ℕ) : List ℕ := (chunkStarts c n).flatMap (chunkRows c n)

/-- The rows of the frame still ungrouped, with their frame positions:
`remaining = df[df['group_id'].isna()]` (dedup_logic.py:86). -/
def remainingOf (df : List Record) : List (ℕ × Record) :=
  df.enum.filter (fun p => decide (p.2.group_id = none))

/-- `FuzzyMatchStep.process` (dedup_logic.py:81), producing the final
`FuzzyState`.  The chunk size is a parameter (the source fixes it to
5000); the cosine-similarity matrix `sim` over remaining-row positions is
the oracle standing for the embedding collaborator. -/
def fuzzyRun (th : ℚ) (sim : ℕ → ℕ → ℚ) (c : ℕ) (df : List Record) : FuzzyState :=
  let rem := remainingOf df
  if rem.isEmpty then ⟨[], df, []⟩
  else
    (chunkIndices c rem.length).foldl
      (anchorStep th sim (rem.map (fun p => textOf p.2)) (rem.map (fun p => p.1))
        rem.length)
      ⟨[], df, []⟩

/-- The annotated frame returned by `FuzzyMatchStep.process`. -/
def fuzzyMatchProcess (th : ℚ) (sim : ℕ → ℕ → ℚ) (c : ℕ) (df : List Record) :
    List Record :=
  (fuzzyRun th sim c df).df

/-- Is a confidence value strictly below `x`?  A null confidence (pandas
`NaN`) compares false. -/
def confLt (oc : Option ℚ) (x : ℚ) : Bool :=
  match oc with
  | some c => decide (c < x)
  | none => false

/-- Is a confidence value strictly above `x`?  Null compares false. -/
def confGt (oc : Option ℚ) (x : ℚ) : Bool :=
  match oc with
  | some c => decide (x < c)
  | none => false

/-- The reranker candidate mask (dedup_logic.py:160):
`match_type == 'fuzzy_hybrid' and confidence < 0.95`. -/
def isRerankCand (r : Record) : Bool :=
  decide (r.match_type = some "fuzzy_hybrid") && confLt r.confidence 0.95

/-- `CrossEncoderRerankerStep.process` (dedup_logic.py:151).  The scoring
adjudicator is the oracle `oracle`, keyed by group id; `oracle g = none`
covers both a raised call (`except: continue`) and a response that
`float()` cannot parse (`except: pass`) — in both cases the source leaves
the group untouched.  The candidate frame and its groups are computed
once up front, so the step is the per-record map below: a record is
rewritten iff it is a candidate in a group holding at least two
candidates and the oracle answers with a score `s`; the score always
overwrites `confidence`, and `s < 0.8` dissolves the group
(`rerank_discarded`) while `0.8 ≤ s` verifies it (`rerank_verified`). -/
def rerankProcess (oracle : String → Option ℚ) (df : List Record) : List Record :=
  if df.countP isRerankCand = 0 then df
  else
    df.map (fun r =>
      match r.group_id with
      | none => r
      | some g =>
        if isRerankCand r = true ∧
            2 ≤ df.countP (fun x => isRerankCand x && decide (x.group_id = some g)) then
          match oracle g with
          | none => r
          | some s =>
            if s < 0.8 then
              { r with confidence := some s, group_id := none,
                       match_type := some "rerank_discarded" }
            else
              { r with confidence := some s, match_type := some "rerank_verified" }
        else r
      )

/-- The ambiguity mask of `LLMAssistedStep.process` (dedup_logic.py:229):
`match_type == 'fuzzy_embedding' and 0.7 < confidence < 0.9`. -/
def isAmbiguous (r : Record) : Bool :=
  decide (r.match_type = some "fuzzy_embedding") &&
    confLt r.confidence 0.9 && confGt r.confidence 0.7

/-- `LLMAssistedStep.process` (dedup_logic.py:220).  The binary
adjudicator is the oracle `oracle`; `oracle g = none` is a raised call
(`except ...: continue`), `some resp` the response text.  The ambiguous
group-id list is computed once from the frame; every record of a group
holding an ambiguous member and at least two members total is rewritten
according to the response: a text containing `yes` (case-insensitively)
marks the whole group `llm_matched`, any other text clears `group_id` and
marks it `llm_discarded`. -/
def llmAssistedProcess (oracle : String → Option String) (df : List Record) :
    List Record :=
  if df.countP (fun r => isAmbiguous r && decide (r.group_id ≠ none)) = 0 then df
  else
    df.map (fun r =>
      match r.group_id with
      | none => r
      | some g =>
        if 0 < df.countP (fun x => isAmbiguous x && decide (x.group_id = some g)) ∧
            2 ≤ groupCount df g then
          match oracle g with
          | none => r
          | some resp =>
            if hasSub "yes".data (pyLower resp).data = true then
              { r with match_type := some "llm_matched" }
            else
              { r with group_id := none, match_type := some "llm_discarded" }
        else r
      )

/-- `HumanReviewStep.process` (dedup_logic.py:274): flag for review the
records with `match_type == 'fuzzy_embedding'` and `confidence < 0.8`. -/
def humanReviewProcess (df : List Record) : List Record :=
  df.map (fun r =>
    if decide (r.match_type = some "fuzzy_embedding") && confLt r.confidence 0.8 then
      { r with review_required := true }
    else r)

/-- The external collaborators of one pipeline run: the cosine-similarity
matrix obtained from the embedding model, and the two Gemini adjudicator
call shapes. -/
structure Oracles where
  sim : ℕ → ℕ → ℚ
  rerank : String → Option ℚ
  binary : String → Option String

/-- The five pipeline steps of `DedupAgent.run` (dedup_logic.py:294) in
order, before the final cleanup, at the source's fixed parameters
(fuzzy threshold 0.90, chunk size 5000). -/
def runStages (o : Oracles) (df : List Record) : List Record :=
  humanReviewProcess
    (llmAssistedProcess o.binary
      (rerankProcess o.rerank
        (fuzzyMatchProcess 0.9 o.sim 5000
          (exactMatchProcess df))))

/-- `DedupAgent.run` (dedup_logic.py:294): the five steps followed by the
orphan-group cleanup. -/
def dedupAgentRun (o : Oracles) (df : List Record) : List Record :=
  sanitize (runStages o df)

/-! ### Basic list helper lemmas -/

lemma modifyAt_length (f : Record → Record) : ∀ (n : ℕ) (l : List Record),
    (modifyAt f n l).length = l.length
  | n, [] => by cases n <;> rfl
  | 0, _ :: _ => rfl
  | n + 1, _ :: rs => by simp [modifyAt, modifyAt_length f n rs]

lemma modifyAt_getElem? (f : Record → Record) :
    ∀ (n : ℕ) (l : List Record) (i : ℕ),
      (modifyAt f n l)[i]? = if n = i then (l[i]?).map f else l[i]?
  | _, [], i => by simp [modifyAt]
  | 0, r :: rs, 0 => by simp [modifyAt]
  | 0, r :: rs, i + 1 => by simp [modifyAt]
  | n + 1, r :: rs, 0 => by simp [modifyAt]
  | n + 1, r :: rs, i + 1 => by
    simp only [modifyAt, List.getElem?_cons_succ, modifyAt_getElem? f n rs i]
    by_cases h : n = i <;> simp [h]

lemma mem_modifyAt (f : Record → Record) :
    ∀ (n : ℕ) (l : List Record) (r : Record), r ∈ modifyAt f n l →
      r ∈ l ∨ ∃ r₀ ∈ l, r = f r₀
  | _, [], r, h => by simp [modifyAt] at h
  | 0, x :: xs, r, h => by
    rcases List.mem_cons.1 h with h | h
    · exact Or.inr ⟨x, List.mem_cons_self x xs, h⟩
    · exact Or.inl (List.mem_cons_of_mem x h)
  | n + 1, x :: xs, r, h => by
    rcases List.mem_cons.1 h with h | h
    · exact Or.inl (h ▸ List.mem_cons_self x xs)
    · rcases mem_modifyAt f n xs r h with h | ⟨r₀, hr₀, hfr⟩
      · exact Or.inl (List.mem_cons_of_mem x h)
      · exact Or.inr ⟨r₀, List.mem_cons_of_mem x hr₀, hfr⟩

lemma map_eq_self_of_eq {f : Record → Record} :
    ∀ {l : List Record}, (∀ r ∈ l, f r = r) → l.map f = l
  | [], _ => rfl
  | x :: xs, h => by
    simp only [List.map_cons, h x (List.mem_cons_self x xs)]
    rw [map_eq_self_of_eq fun r hr => h r (List.mem_cons_of_mem x hr)]

lemma two_le_countP {p : Record → Bool} :
    ∀ {l : List Record} {i j : ℕ} {a b : Record}, i ≠ j →
      l[i]? = some a → l[j]? = some b → p a = true → p b = true →
      2 ≤ l.countP p := by
  intro l
  induction l with
  | nil => intro i j a b _ ha; simp at ha
  | cons x xs ih =>
    intro i j a b hij ha hb hpa hpb
    match i, j with
    | 0, 0 => exact absurd rfl hij
    | 0, j + 1 =>
      rw [List.getElem?_cons_zero, Option.some_inj] at ha
      rw [List.getElem?_cons_succ] at hb
      have hbm : b ∈ xs := List.getElem?_mem hb
      have h1 : 0 < xs.countP p := List.countP_pos_iff.2 ⟨b, hbm, hpb⟩
      rw [List.countP_cons, if_pos (ha ▸ hpa)]
      omega
    | i + 1, 0 =>
      rw [List.getElem?_cons_zero, Option.some_inj] at hb
      rw [List.getElem?_cons_succ] at ha
      have ham : a ∈ xs := List.getElem?_mem ha
      have h1 : 0 < xs.countP p := List.countP_pos_iff.2 ⟨a, ham, hpa⟩
      rw [List.countP_cons, if_pos (hb ▸ hpb)]
      omega
    | i + 1, j + 1 =>
      rw [List.getElem?_cons_succ] at ha hb
      have h2 := ih (by omega : i ≠ j) ha hb hpa hpb
      rw [List.countP_cons]
      omega

/-! ### GroupSanitizer lemmas (claim C1) -/

/-- The per-record transform of `sanitize`, relative to the counts of the
frame it runs over. -/
def sanFun (df : List Record) (r : Record) : Record :=
  match r.group_id with
  | none => r
  | some g =>
    if groupCount df g = 1 then { r with group_id := none, match_type := none }
    else r

lemma sanitize_eq_map (df : List Record) : sanitize df = df.map (sanFun df) := rfl

lemma sanFun_group_id {df : List Record} {r : Record} {g : String} :
    (sanFun df r).group_id = some g ↔ r.group_id = some g ∧ groupCount df g ≠ 1 := by
  rcases hr : r.group_id with _ | g'
  · simp [sanFun, hr]
  · by_cases h1 : groupCount df g' = 1
    · simp only [sanFun, hr, if_pos h1, hr]
      constructor
      · intro h; exact absurd h (by simp)
      · rintro ⟨hg, hne⟩
        rw [Option.some_inj] at hg
        exact absurd (hg ▸ h1) hne
    · simp only [sanFun, hr, if_neg h1]
      constructor
      · intro h
        refine ⟨h, ?_⟩
        rw [Option.some_inj] at h
        rw [← h]
        exact h1
      · rintro ⟨hg, _⟩; exact hg

lemma groupCount_sanitize {df : List Record} {g : String} (h2 : groupCount df g ≠ 1) :
    groupCount (sanitize df) g = groupCount df g := by
  rw [sanitize_eq_map, groupCount, List.countP_map]
  apply List.countP_congr
  intro r _
  simp only [Function.comp_apply, decide_eq_true_eq]
  rw [sanFun_group_id]
  exact ⟨fun h => h.1, fun h => ⟨h, h2⟩⟩

lemma countP_pos_of_getElem? {p : Record → Bool} {l : List Record} {i : ℕ} {r : Record}
    (h : l[i]? = some r) (hp : p r = true) : 0 < l.countP p :=
  List.countP_pos_iff.2 ⟨r, List.getElem?_mem h, hp⟩

lemma sanitize_no_singleton (df : List Record) :
    ∀ r ∈ sanitize df, ∀ g, r.group_id = some g →
      2 ≤ groupCount (sanitize df) g := by
  intro r' hr' g hg
  rw [sanitize_eq_map] at hr'
  obtain ⟨r, hrdf, hfr⟩ := List.mem_map.1 hr'
  rw [← hfr] at hg
  rw [sanFun_group_id] at hg
  obtain ⟨hrg, hne⟩ := hg
  have h1 : 0 < groupCount df g :=
    List.countP_pos_iff.2 ⟨r, hrdf, by simp [hrg]⟩
  rw [groupCount_sanitize hne]
  omega

lemma sanitize_clears {df : List Record} {i : ℕ} {r : Record} {g : String}
    (hi : df[i]? = some r) (hg : r.group_id = some g) (h1 : groupCount df g = 1) :
    (sanitize df)[i]? = some { r with group_id := none, match_type := none } := by
  rw [sanitize_eq_map, List.getElem?_map, hi, Option.map_some']
  simp [sanFun, hg, h1]

/-- C1: after `DedupAgent.run` completes all stages and the final cleanup,
every record's `group_id` is either null or shared by at least two
records of the output, and every record whose `group_id` was cleared as a
singleton (its group had exactly one member going into the cleanup) also
has `match_type` cleared to null. -/
theorem C1_no_singleton_groups_after_run (o : Oracles) (df : List Record) :
    (∀ r ∈ dedupAgentRun o df, ∀ g : String, r.group_id = some g →
        2 ≤ groupCount (dedupAgentRun o df) g) ∧
    (∀ (i : ℕ) (r : Record) (g : String),
        (runStages o df)[i]? = some r → r.group_id = some g →
        groupCount (runStages o df) g = 1 →
        (dedupAgentRun o df)[i]? =
          some { r with group_id := none, match_type := none }) := by
  constructor
  · exact sanitize_no_singleton (runStages o df)
  · intro i r g hi hg h1
    exact sanitize_clears hi hg h1

/-- A record with every annotation null: the shape coming out of the
BigQuery fetch. -/
def freshRecord (ic bc d1 d2 : Option String) : Record :=
  ⟨ic, bc, d1, d2, none, none, none, false⟩

/-- An oracle set whose adjudicators always fail and whose similarity
matrix is identically zero. -/
def trivialOracles : Oracles :=
  ⟨fun _ _ => 0, fun _ => none, fun _ => none⟩

/-- An oracle set whose similarity matrix is identically one. -/
def onesOracles : Oracles :=
  ⟨fun _ _ => 1, fun _ => none, fun _ => none⟩

/-- A pair of records sharing the exact key `X`. -/
def dfPairX : List Record :=
  [freshRecord (some "X") none none none, freshRecord (some "X") none none none]

/-- A pair of ungrouped records with identical description `a`. -/
def dfPairA : List Record :=
  [freshRecord none none (some "a") none, freshRecord none none (some "a") none]

section
attribute [local semireducible] Rat.mul Rat.add Rat.sub Rat.inv Rat.ofScientific

theorem C1_no_singleton_groups_after_run_witness :
    2 ≤ groupCount (dedupAgentRun trivialOracles dfPairX) "exact_item_X" ∧
    (dedupAgentRun onesOracles dfPairA)[1]? =
      some { freshRecord none none (some "a") none with
               group_id := none, match_type := none, confidence := some 1 } := by
  constructor
  · exact (C1_no_singleton_groups_after_run trivialOracles dfPairX).1
      { freshRecord (some "X") none none none with
          group_id := some "exact_item_X", match_type := some "exact_item_code" }
      (by decide) "exact_item_X" (by decide)
  · exact (C1_no_singleton_groups_after_run onesOracles dfPairA).2 1
      { freshRecord none none (some "a") none with
          group_id := some "fuzzy_0", match_type := some "fuzzy_hybrid",
          confidence := some 1 }
      "fuzzy_0" (by decide) (by decide) (by decide)

end

/-! ### ExactMatcher (claim C8) -/

/-- C8: `ExactMatchStep.process` partitions only records with a non-null
key value.  Conjuncts: (1) two distinct records sharing the same non-null
`item_code` — the highest-priority key — both end in the one deterministic
group `exact_item_<value>`, never in different groups; (2) two distinct
records still ungrouped after the item pass sharing the same non-null
`barcode` both end in `exact_barcode_<value>`; (3) a record with null
`item_code` is untouched by the item pass; (4) a record with null
`barcode` is untouched by the barcode pass. -/
theorem C8_exact_match_partition (df : List Record) :
    (∀ (i j : ℕ) (v : String) (ri rj : Record), i ≠ j →
        df[i]? = some ri → df[j]? = some rj →
        ri.item_code = some v → rj.item_code = some v →
        (exactMatchProcess df)[i]? =
            some { ri with group_id := some ("exact_item_" ++ v),
                           match_type := some "exact_item_code" } ∧
        (exactMatchProcess df)[j]? =
            some { rj with group_id := some ("exact_item_" ++ v),
                           match_type := some "exact_item_code" }) ∧
    (∀ (i j : ℕ) (v : String) (ri rj : Record), i ≠ j →
        (itemPass df)[i]? = some ri → (itemPass df)[j]? = some rj →
        ri.group_id = none → rj.group_id = none →
        ri.barcode = some v → rj.barcode = some v →
        (exactMatchProcess df)[i]? =
            some { ri with group_id := some ("exact_barcode_" ++ v),
                           match_type := some "exact_barcode" } ∧
        (exactMatchProcess df)[j]? =
            some { rj with group_id := some ("exact_barcode_" ++ v),
                           match_type := some "exact_barcode" }) ∧
    (∀ (i : ℕ) (r : Record), df[i]? = some r → r.item_code = none →
        (itemPass df)[i]? = some r) ∧
    (∀ (i : ℕ) (r : Record), (itemPass df)[i]? = some r → r.barcode = none →
        (exactMatchProcess df)[i]? = some r) := by
  have hitem : ∀ (i j : ℕ) (v : String) (ri rj : Record), i ≠ j →
      df[i]? = some ri → df[j]? = some rj →
      ri.item_code = some v → rj.item_code = some v →
      (itemPass df)[i]? =
        some { ri with group_id := some ("exact_item_" ++ v),
                       match_type := some "exact_item_code" } := by
    intro i j v ri rj hij hi hj hvi hvj
    have h2 : 2 ≤ df.countP (fun x => decide (x.item_code = some v)) :=
      two_le_countP hij hi hj (by simp [hvi]) (by simp [hvj])
    rw [itemPass, List.getElem?_map, hi, Option.map_some']
    simp only [hvi, h2, if_pos]
  refine ⟨?_, ?_, ?_, ?_⟩
  · intro i j v ri rj hij hi hj hvi hvj
    have hgi := hitem i j v ri rj hij hi hj hvi hvj
    have hgj := hitem j i v rj ri (Ne.symm hij) hj hi hvj hvi
    constructor
    · rw [exactMatchProcess, barcodePass, List.getElem?_map, hgi, Option.map_some']
      simp
    · rw [exactMatchProcess, barcodePass, List.getElem?_map, hgj, Option.map_some']
      simp
  · intro i j v ri rj hij hi hj hgi hgj hvi hvj
    have h2 : 2 ≤ (itemPass df).countP
        (fun x => decide (x.group_id = none ∧ x.barcode = some v)) :=
      two_le_countP hij hi hj (by simp [hgi, hvi]) (by simp [hgj, hvj])
    constructor
    · rw [exactMatchProcess, barcodePass, List.getElem?_map, hi, Option.map_some']
      simp only [hgi, if_pos, hvi, h2, if_true]
    · rw [exactMatchProcess, barcodePass, List.getElem?_map, hj, Option.map_some']
      simp only [hgj, if_pos, hvj, h2, if_true]
  · intro i r hi hnone
    rw [itemPass, List.getElem?_map, hi, Option.map_some', hnone]
  · intro i r hi hnone
    rw [exactMatchProcess, barcodePass, List.getElem?_map, hi, Option.map_some']
    by_cases hg : r.group_id = none
    · simp [hg, hnone]
    · simp [hg]

/-- A four-record frame: an `item_code` pair `X` and a `barcode` pair `B`. -/
def dfKeys : List Record :=
  [freshRecord (some "X") none none none, freshRecord none (some "B") none none,
   freshRecord (some "X") none none none, freshRecord none (some "B") none none]

theorem C8_exact_match_partition_witness :
    (exactMatchProcess dfKeys)[0]? =
        some { freshRecord (some "X") none none none with
                 group_id := some ("exact_item_" ++ "X"),
                 match_type := some "exact_item_code" } ∧
    (exactMatchProcess dfKeys)[1]? =
        some { freshRecord none (some "B") none none with
                 group_id := some ("exact_barcode_" ++ "B"),
                 match_type := some "exact_barcode" } ∧
    (itemPass dfKeys)[1]? = some (freshRecord none (some "B") none none) := by
  refine ⟨?_, ?_, ?_⟩
  · exact ((C8_exact_match_partition dfKeys).1 0 2 "X"
      (freshRecord (some "X") none none none) (freshRecord (some "X") none none none)
      (by decide) (by decide) (by decide) (by decide) (by decide)).1
  · exact ((C8_exact_match_partition dfKeys).2.1 1 3 "B"
      (freshRecord none (some "B") none none) (freshRecord none (some "B") none none)
      (by decide) (by decide) (by decide) (by decide) (by decide) (by decide)
      (by decide)).1
  · exact (C8_exact_match_partition dfKeys).2.2.1 1
      (freshRecord none (some "B") none none) (by decide) (by decide)

/-! ### SimilaritySearcher characterization (claims C2, C3, C4, C9) -/

/-- Is candidate `j` confirmed when the candidate loop of anchor `a`
reaches it?  (dedup_logic.py:122,133: not the anchor itself, and the fused
score strictly exceeds the threshold.) -/
def confirmP (th : ℚ) (sim : ℕ → ℕ → ℚ) (texts : List String) (a j : ℕ) : Prop :=
  ¬j = a ∧ th < fusedScore sim texts a j

instance (th : ℚ) (sim : ℕ → ℕ → ℚ) (texts : List String) (a j : ℕ) :
    Decidable (confirmP th sim texts a j) := by unfold confirmP; infer_instance

lemma innerStep_of_confirm {th : ℚ} {sim : ℕ → ℕ → ℚ} {texts : List String}
    {ridx : List ℕ} {a j : ℕ} {s : FuzzyState} (h : confirmP th sim texts a j) :
    innerStep th sim texts ridx a s j =
      { visited := j :: a :: s.visited,
        df := applyEvent s.df (mkEv ridx a j (fusedScore sim texts a j)),
        log := s.log ++ [mkEv ridx a j (fusedScore sim texts a j)] } := by
  unfold innerStep
  rw [if_neg h.1, if_pos h.2]

lemma innerStep_of_not_confirm {th : ℚ} {sim : ℕ → ℕ → ℚ} {texts : List String}
    {ridx : List ℕ} {a j : ℕ} {s : FuzzyState} (h : ¬confirmP th sim texts a j) :
    innerStep th sim texts ridx a s j = s := by
  unfold innerStep
  by_cases hja : j = a
  · rw [if_pos hja]
  · rw [if_neg hja, if_neg (fun hth => h ⟨hja, hth⟩)]

lemma innerFoldl_log (th : ℚ) (sim : ℕ → ℕ → ℚ) (texts : List String)
    (ridx : List ℕ) (a : ℕ) (L : List ℕ) :
    ∀ s : FuzzyState,
      (L.foldl (innerStep th sim texts ridx a) s).log =
        s.log ++ (L.filter (fun j => decide (confirmP th sim texts a j))).map
          (fun j => mkEv ridx a j (fusedScore sim texts a j)) := by
  induction L with
  | nil => intro s; simp
  | cons j L ih =>
    intro s
    rw [List.foldl_cons, ih, List.filter_cons]
    by_cases hc : confirmP th sim texts a j
    · rw [innerStep_of_confirm hc]
      simp [hc]
    · rw [innerStep_of_not_confirm hc]
      simp [hc]

lemma innerFoldl_df (th : ℚ) (sim : ℕ → ℕ → ℚ) (texts : List String)
    (ridx : List ℕ) (a : ℕ) (L : List ℕ) :
    ∀ s : FuzzyState,
      (L.foldl (innerStep th sim texts ridx a) s).df =
        ((L.filter (fun j => decide (confirmP th sim texts a j))).map
          (fun j => mkEv ridx a j (fusedScore sim texts a j))).foldl applyEvent s.df := by
  induction L with
  | nil => intro s; simp
  | cons j L ih =>
    intro s
    rw [List.foldl_cons, ih, List.filter_cons]
    by_cases hc : confirmP th sim texts a j
    · rw [innerStep_of_confirm hc]
      simp [hc]
    · rw [innerStep_of_not_confirm hc]
      simp [hc]

lemma innerFoldl_visited (th : ℚ) (sim : ℕ → ℕ → ℚ) (texts : List String)
    (ridx : List ℕ) (a : ℕ) (L : List ℕ) :
    ∀ s : FuzzyState,
      (L.foldl (innerStep th sim texts ridx a) s).visited =
        ((L.filter (fun j => decide (confirmP th sim texts a j))).reverse.flatMap
          (fun j => [j, a])) ++ s.visited := by
  induction L with
  | nil => intro s; simp
  | cons j L ih =>
    intro s
    rw [List.foldl_cons, ih, List.filter_cons]
    by_cases hc : confirmP th sim texts a j
    · rw [innerStep_of_confirm hc]
      simp [hc]
    · rw [innerStep_of_not_confirm hc]
      simp [hc]

/-- C2: for an anchor row `a` not yet visited, the assignments appended
during its turn are exactly one per candidate `j` that (i) passes the
cosine pre-filter `sim a j > threshold - 0.15` — only those are considered
at all — and (ii) is not the anchor itself and has fused score
`0.7·cosine + 0.3·overlap` strictly above the threshold; the stored
confidence is that fused score, and `overlapScore` is
`|tokens(a) ∩ tokens(b)| / min(|tokens(a)|, |tokens(b)|)` (0 on an empty
token set) over the whitespace-split normalized texts. -/
theorem C2_candidate_filter_and_fusion (th : ℚ) (sim : ℕ → ℕ → ℚ)
    (texts : List String) (ridx : List ℕ) (n : ℕ) (s : FuzzyState) (a : ℕ)
    (h : a ∉ s.visited) :
    (anchorStep th sim texts ridx n s a).log =
      s.log ++
        (((List.range n).filter (fun j => decide (th - 0.15 < sim a j))).filter
            (fun j => decide (¬j = a ∧
              th < 0.7 * sim a j +
                0.3 * overlapScore (texts.getD a "") (texts.getD j "")))).map
          (fun j => mkEv ridx a j
            (0.7 * sim a j +
              0.3 * overlapScore (texts.getD a "") (texts.getD j ""))) := by
  unfold anchorStep
  rw [if_neg h]
  exact innerFoldl_log th sim texts ridx a _ s

section
attribute [local semireducible] Rat.mul Rat.add Rat.sub Rat.inv Rat.ofScientific

theorem C2_candidate_filter_and_fusion_witness :
    (anchorStep 0.9 (fun _ _ => 1) ["a", "a"] [0, 1] 2 ⟨[], dfPairA, []⟩ 0).log =
      [] ++
        (((List.range 2).filter (fun j => decide ((0.9 : ℚ) - 0.15 < 1))).filter
            (fun j => decide (¬j = 0 ∧
              (0.9 : ℚ) < 0.7 * 1 +
                0.3 * overlapScore (["a", "a"].getD 0 "") (["a", "a"].getD j "")))).map
          (fun j => mkEv [0, 1] 0 j
            (0.7 * 1 +
              0.3 * overlapScore (["a", "a"].getD 0 "") (["a", "a"].getD j ""))) :=
  C2_candidate_filter_and_fusion 0.9 (fun _ _ => 1) ["a", "a"] [0, 1] 2
    ⟨[], dfPairA, []⟩ 0 (by decide)

end

lemma chunkRows_eq_range' (c n i : ℕ) :
    chunkRows c n i = List.range' i (min (i + c) n - i) := by
  rw [chunkRows, List.range'_eq_map_range]

lemma chunkStarts_prefix_flat (c n : ℕ) (hc : 0 < c) :
    ∀ k : ℕ, ((List.range k).map (· * c)).flatMap (chunkRows c n) =
      List.range' 0 (min (k * c) n) := by
  intro k
  induction k with
  | zero => simp
  | succ k ih =>
    rw [List.range_succ, List.map_append, List.flatMap_append, ih]
    simp only [List.map_cons, List.map_nil, List.flatMap_cons, List.flatMap_nil,
      List.append_nil]
    rw [chunkRows_eq_range']
    by_cases h : n ≤ k * c
    · have h1 : min (k * c) n = n := min_eq_right h
      have h2 : min (k * c + c) n = n := min_eq_right (le_trans h (by omega))
      have h3 : min (k * c + c) n - k * c = 0 := by omega
      have h4 : min ((k + 1) * c) n = n := by rw [Nat.succ_mul]; omega
      rw [h1, h3, h4, List.range'_zero, List.append_nil]
    · push_neg at h
      have h1 : min (k * c) n = k * c := min_eq_left (le_of_lt h)
      have h2 : k * c ≤ min (k * c + c) n := le_min (by omega) (le_of_lt h)
      have h3 := List.range'_append 0 (k * c) (min (k * c + c) n - k * c) 1
      simp only [one_mul, zero_add] at h3
      rw [h1, h3]
      congr 1
      rw [Nat.succ_mul]
      omega

lemma chunkIndices_eq_range (c : ℕ) (hc : 0 < c) (n : ℕ) :
    chunkIndices c n = List.range n := by
  rw [chunkIndices, chunkStarts, chunkStarts_prefix_flat c n hc]
  have hk : n ≤ (n + c - 1) / c * c := by
    rcases Nat.eq_zero_or_pos n with hn | hn
    · omega
    · obtain ⟨m, rfl⟩ : ∃ m, n = m + 1 := ⟨n - 1, by omega⟩
      have he : (m + 1 + c - 1) / c = m / c + 1 := by
        have : m + 1 + c - 1 = m + c := by omega
        rw [this, Nat.add_div_right m hc]
      rw [he]
      have hlt := (Nat.div_lt_iff_lt_mul hc).1 (Nat.lt_succ_self (m / c))
      rw [Nat.succ_eq_add_one] at hlt
      omega
  rw [min_eq_right hk, List.range_eq_range']

/-- C9: for a fixed frame, similarity matrix and threshold, the whole
outcome of `FuzzyMatchStep.process` — annotated frame, visited set, and
the full chronological assignment log (hence in particular the set of
confirmed match pairs) — is identical for any two positive chunk sizes:
the chunked outer loop only bounds the similarity-matrix slice, while the
anchor iteration order it produces is always `0, 1, …, n-1`. -/
theorem C9_chunk_size_independence (th : ℚ) (sim : ℕ → ℕ → ℚ)
    (df : List Record) (c₁ c₂ : ℕ) (h₁ : 0 < c₁) (h₂ : 0 < c₂) :
    fuzzyRun th sim c₁ df = fuzzyRun th sim c₂ df := by
  simp only [fuzzyRun, chunkIndices_eq_range c₁ h₁, chunkIndices_eq_range c₂ h₂]

section
attribute [local semireducible] Rat.mul Rat.add Rat.sub Rat.inv Rat.ofScientific

theorem C9_chunk_size_independence_witness :
    fuzzyRun 0.9 (fun _ _ => 1) 2 dfPairA = fuzzyRun 0.9 (fun _ _ => 1) 3 dfPairA :=
  C9_chunk_size_independence 0.9 (fun _ _ => 1) dfPairA 2 3 (by decide) (by decide)

end

lemma overlapScore_eq_one {t1 t2 : String} (heq : tokenSet t1 = tokenSet t2)
    (hne : tokenSet t1 ≠ ∅) : overlapScore t1 t2 = 1 := by
  unfold overlapScore
  rw [if_neg (by rw [← heq]; exact fun h => h.elim hne hne), ← heq,
    Finset.inter_self, min_self]
  have hc : (tokenSet t1).card ≠ 0 := fun h => hne (Finset.card_eq_zero.1 h)
  exact div_self (Nat.cast_ne_zero.2 hc)

section
attribute [local semireducible] Rat.mul Rat.add Rat.sub Rat.inv Rat.ofScientific

/-- C3 fails on the code: for two ungrouped records with cosine
similarity 1 and identical non-empty token sets, the pair is confirmed
with fused score 1, but only the *candidate* record receives the
`group_id` / `match_type` / `confidence` annotations
(dedup_logic.py:137 writes only `remaining.index[sim_idx]`); the anchor
row keeps `group_id = None`, so the two records do not carry the same
group id. -/
theorem C3_counterexample :
    fusedScore (fun _ _ => 1) (dfPairA.map textOf) 0 1 = 1 ∧
    ((fuzzyRun 0.9 (fun _ _ => 1) 5000 dfPairA).df.map (fun r => r.group_id)) =
      [none, some "fuzzy_0"] ∧
    ((fuzzyRun 0.9 (fun _ _ => 1) 5000 dfPairA).df.map (fun r => r.match_type)) =
      [none, some "fuzzy_hybrid"] ∧
    ¬(∃ g : String,
        ((fuzzyRun 0.9 (fun _ _ => 1) 5000 dfPairA).df.map (fun r => r.group_id)) =
          [some g, some g]) := by
  refine ⟨by decide, by decide, by decide, ?_⟩
  rintro ⟨g, hg⟩
  have : ((fuzzyRun 0.9 (fun _ _ => 1) 5000 dfPairA).df.map
      (fun r => r.group_id)) = [none, some "fuzzy_0"] := by decide
  rw [this] at hg
  exact Option.noConfusion (List.head_eq_of_cons_eq hg)

end

/-- C3 (amended): for a frame of two ungrouped records with cosine
similarity 1.0 and identical non-empty token sets, the fused score equals
1.0 and the pair is confirmed at any `primary_threshold < 1.0`; after the
similarity stage the *candidate* record (row 1) carries
`group_id = "fuzzy_0"` (derived from the anchor's identity),
`match_type = fuzzy_hybrid` and `confidence` equal to the fused score,
while the anchor row is marked visited but keeps its own `group_id`
null — the code never annotates the anchor itself. -/
theorem C3_amended_pair_confirmed (r0 r1 : Record) (th : ℚ) (sim : ℕ → ℕ → ℚ)
    (h0 : r0.group_id = none) (h1 : r1.group_id = none)
    (heq : tokenSet (textOf r0) = tokenSet (textOf r1))
    (hne : tokenSet (textOf r0) ≠ ∅)
    (hsim : sim 0 1 = 1) (hth : th < 1) :
    fusedScore sim [textOf r0, textOf r1] 0 1 = 1 ∧
    fuzzyRun th sim 5000 [r0, r1] =
      { visited := [1, 0],
        df := [r0, { r1 with group_id := some "fuzzy_0",
                             match_type := some "fuzzy_hybrid",
                             confidence := some 1 }],
        log := [⟨0, 1, 1, "fuzzy_0", 1⟩] } := by
  have hov : overlapScore (textOf r0) (textOf r1) = 1 := overlapScore_eq_one heq hne
  have hfs : fusedScore sim [textOf r0, textOf r1] 0 1 = 1 := by
    unfold fusedScore
    simp only [List.getD_cons_zero, List.getD_cons_succ]
    rw [hsim, hov]
    norm_num
  refine ⟨hfs, ?_⟩
  have hrem : remainingOf [r0, r1] = [(0, r0), (1, r1)] := by
    simp [remainingOf, List.enum, h0, h1]
  have hmk : mkEv [0, 1] 0 1 (fusedScore sim [textOf r0, textOf r1] 0 1) =
      ⟨0, 1, 1, "fuzzy_0", 1⟩ := by
    rw [hfs]; rfl
  have hconf1 : confirmP th sim [textOf r0, textOf r1] 0 1 := by
    refine ⟨by omega, ?_⟩
    rw [hfs]; exact hth
  have hnconf0 : ¬confirmP th sim [textOf r0, textOf r1] 0 0 :=
    fun h => h.1 rfl
  have hstep : ∀ s : FuzzyState,
      innerStep th sim [textOf r0, textOf r1] [0, 1] 0 s 1 =
        { visited := 1 :: 0 :: s.visited,
          df := applyEvent s.df ⟨0, 1, 1, "fuzzy_0", 1⟩,
          log := s.log ++ [⟨0, 1, 1, "fuzzy_0", 1⟩] } := by
    intro s
    rw [innerStep_of_confirm hconf1, hmk]
  have hanchor0 :
      anchorStep th sim [textOf r0, textOf r1] [0, 1] 2 ⟨[], [r0, r1], []⟩ 0 =
        { visited := [1, 0],
          df := [r0, { r1 with group_id := some "fuzzy_0",
                               match_type := some "fuzzy_hybrid",
                               confidence := some 1 }],
          log := [⟨0, 1, 1, "fuzzy_0", 1⟩] } := by
    rw [anchorStep, if_neg (List.not_mem_nil 0)]
    have hc1 : (decide (th - 0.15 < sim 0 1)) = true := by
      rw [decide_eq_true_eq, hsim]; linarith
    have hrange : List.range 2 = [0, 1] := by decide
    by_cases hc0 : th - 0.15 < sim 0 0
    · have : (List.range 2).filter (fun j => decide (th - 0.15 < sim 0 j)) =
          [0, 1] := by
        rw [hrange]
        simp [List.filter_cons, hc0, hc1]
      rw [this, List.foldl_cons, List.foldl_cons, List.foldl_nil,
        innerStep_of_not_confirm hnconf0, hstep]
      rfl
    · have : (List.range 2).filter (fun j => decide (th - 0.15 < sim 0 j)) =
          [1] := by
        rw [hrange]
        simp [List.filter_cons, hc0, hc1]
      rw [this, List.foldl_cons, List.foldl_nil, hstep]
      rfl
  have hanchor1 :
      anchorStep th sim [textOf r0, textOf r1] [0, 1] 2
        { visited := [1, 0],
          df := [r0, { r1 with group_id := some "fuzzy_0",
                               match_type := some "fuzzy_hybrid",
                               confidence := some 1 }],
          log := [⟨0, 1, 1, "fuzzy_0", 1⟩] } 1 =
        { visited := [1, 0],
          df := [r0, { r1 with group_id := some "fuzzy_0",
                               match_type := some "fuzzy_hybrid",
                               confidence := some 1 }],
          log := [⟨0, 1, 1, "fuzzy_0", 1⟩] } := by
    rw [anchorStep, if_pos (by simp)]
  have hci : chunkIndices 5000 2 = [0, 1] := by decide
  simp only [fuzzyRun, hrem]
  rw [if_neg (by simp)]
  simp only [List.map_cons, List.map_nil, List.length_cons, List.length_nil]
  rw [hci, List.foldl_cons, List.foldl_cons, List.foldl_nil, hanchor0, hanchor1]

section
attribute [local semireducible] Rat.mul Rat.add Rat.sub Rat.inv Rat.ofScientific

theorem C3_amended_pair_confirmed_witness :
    fusedScore (fun _ _ => 1)
        [textOf (freshRecord none none (some "a") none),
         textOf (freshRecord none none (some "a") none)] 0 1 = 1 ∧
    fuzzyRun 0.9 (fun _ _ => 1) 5000
        [freshRecord none none (some "a") none,
         freshRecord none none (some "a") none] =
      { visited := [1, 0],
        df := [freshRecord none none (some "a") none,
               { freshRecord none none (some "a") none with
                   group_id := some "fuzzy_0",
                   match_type := some "fuzzy_hybrid",
                   confidence := some 1 }],
        log := [⟨0, 1, 1, "fuzzy_0", 1⟩] } :=
  C3_amended_pair_confirmed (freshRecord none none (some "a") none)
    (freshRecord none none (some "a") none) 0.9 (fun _ _ => 1)
    rfl rfl rfl (by decide) rfl (by decide)

end

/-- The three-record frame of the C4 counterexample: identical
descriptions throughout. -/
def dfTriple : List Record :=
  [freshRecord none none (some "a") none, freshRecord none none (some "a") none,
   freshRecord none none (some "a") none]

/-- A similarity matrix under which rows 0 and 1 are far apart while both
are close to row 2. -/
def simShared : ℕ → ℕ → ℚ := fun i j =>
  if (i = 0 ∧ j = 1) ∨ (i = 1 ∧ j = 0) then 1/2 else 1

section
attribute [local semireducible] Rat.mul Rat.add Rat.sub Rat.inv Rat.ofScientific

/-- C4 fails on the code: the visited set is only consulted when a row
comes up as an *anchor* (dedup_logic.py:114); the candidate loop never
checks it, so after anchor 0 claims record 2 (making it visited), anchor 1
confirms and re-assigns record 2 again.  Record 2's `group_id` and
`confidence` are written twice in one similarity stage, and its final
group id `fuzzy_1` comes from the *last* confirming anchor, not the first
(which wrote `fuzzy_0`). -/
theorem C4_counterexample :
    ((fuzzyRun 0.9 simShared 5000 dfTriple).log.map
        (fun e => (e.anchor, e.targetOrig, e.gid))) =
      [(0, 2, "fuzzy_0"), (1, 2, "fuzzy_1")] ∧
    ((fuzzyRun 0.9 simShared 5000 dfTriple).log.filter
        (fun e => decide (e.targetOrig = 2))).length = 2 ∧
    ((fuzzyRun 0.9 simShared 5000 dfTriple).df.map (fun r => r.group_id)) =
      [none, none, some "fuzzy_1"] := by
  refine ⟨by decide, by decide, by decide⟩

end

lemma anchorStep_df_eq_applyLog {th : ℚ} {sim : ℕ → ℕ → ℚ} {texts : List String}
    {ridx : List ℕ} {n : ℕ} {df₀ : List Record} {s : FuzzyState} (a : ℕ)
    (h : s.df = s.log.foldl applyEvent df₀) :
    (anchorStep th sim texts ridx n s a).df =
      (anchorStep th sim texts ridx n s a).log.foldl applyEvent df₀ := by
  unfold anchorStep
  by_cases hv : a ∈ s.visited
  · rw [if_pos hv]; exact h
  · rw [if_neg hv, innerFoldl_df, innerFoldl_log, h, List.foldl_append]

lemma anchorsFoldl_df_eq_applyLog {th : ℚ} {sim : ℕ → ℕ → ℚ} {texts : List String}
    {ridx : List ℕ} {n : ℕ} {df₀ : List Record} (A : List ℕ) :
    ∀ s : FuzzyState, s.df = s.log.foldl applyEvent df₀ →
      (A.foldl (anchorStep th sim texts ridx n) s).df =
        (A.foldl (anchorStep th sim texts ridx n) s).log.foldl applyEvent df₀ := by
  induction A with
  | nil => intro s h; exact h
  | cons a A ih =>
    intro s h
    rw [List.foldl_cons]
    exact ih _ (anchorStep_df_eq_applyLog a h)

lemma fuzzyRun_df_eq_applyLog (th : ℚ) (sim : ℕ → ℕ → ℚ) (c : ℕ)
    (df : List Record) :
    (fuzzyRun th sim c df).df = (fuzzyRun th sim c df).log.foldl applyEvent df := by
  unfold fuzzyRun
  by_cases h : (remainingOf df).isEmpty
  · simp [h]
  · simp only [h, Bool.false_eq_true, if_false]
    exact anchorsFoldl_df_eq_applyLog _ _ rfl

section
attribute [local semireducible] Rat.mul Rat.add Rat.sub Rat.inv Rat.ofScientific

/-- C4 (amended): the visited set only blocks a claimed record from
acting as an *anchor* — `anchorStep` is the identity on a visited
anchor — but not from being claimed again as a candidate: the stage's
output frame is the input frame with the assignment log replayed in
chronological order, so a record may be written several times and the
*last* confirming anchor wins, as the concrete three-record run shows
(record 2 is written by anchor 0 and then re-written by anchor 1). -/
theorem C4_amended_visited_blocks_anchors_only :
    (∀ (th : ℚ) (sim : ℕ → ℕ → ℚ) (texts : List String) (ridx : List ℕ)
        (n : ℕ) (s : FuzzyState) (a : ℕ), a ∈ s.visited →
        anchorStep th sim texts ridx n s a = s) ∧
    (∀ (th : ℚ) (sim : ℕ → ℕ → ℚ) (c : ℕ) (df : List Record),
        (fuzzyRun th sim c df).df =
          (fuzzyRun th sim c df).log.foldl applyEvent df) ∧
    (((fuzzyRun 0.9 simShared 5000 dfTriple).log.map
        (fun e => (e.anchor, e.targetOrig))) = [(0, 2), (1, 2)] ∧
      ((fuzzyRun 0.9 simShared 5000 dfTriple).df.map (fun r => r.confidence)) =
        [none, none, some 1]) := by
  refine ⟨?_, fuzzyRun_df_eq_applyLog, by decide, by decide⟩
  intro th sim texts ridx n s a hv
  unfold anchorStep
  rw [if_pos hv]

theorem C4_amended_visited_blocks_anchors_only_witness :
    anchorStep 0.9 simShared [] [] 0 ⟨[5], dfTriple, []⟩ 5 = ⟨[5], dfTriple, []⟩ :=
  C4_amended_visited_blocks_anchors_only.1 0.9 simShared [] [] 0
    ⟨[5], dfTriple, []⟩ 5 (by decide)

end

/-! ### Reranker and AmbiguityResolver (claims C5, C6, C7) -/

lemma countP_true_of_getElem? {p : Record → Bool} {l : List Record} {i : ℕ}
    {r : Record} (h : l[i]? = some r) (hp : p r = true) : l.countP p ≠ 0 :=
  Nat.pos_iff_ne_zero.1 (countP_pos_of_getElem? h hp)

/-- C6: every qualifying Reranker group — all members carry
`match_type = fuzzy_hybrid` with `confidence < 0.95`, and there are at
least two of them — whose scoring adjudicator call parses to a score `s`
has `confidence` overwritten with `s` on every member; if `s < 0.8` the
group is dissolved (`group_id` cleared, `match_type = rerank_discarded`,
the new confidence kept as audit trail), otherwise every member becomes
`rerank_verified` and keeps its group. -/
theorem C6_rerank_overwrite_and_demote (oracle : String → Option ℚ)
    (df : List Record) (g : String) (s : ℚ)
    (hall : ∀ r ∈ df, r.group_id = some g → isRerankCand r = true)
    (h2 : 2 ≤ groupCount df g)
    (hor : oracle g = some s) :
    ∀ (i : ℕ) (r : Record), df[i]? = some r → r.group_id = some g →
      (rerankProcess oracle df)[i]? =
        some (if s < 0.8 then
            { r with confidence := some s, group_id := none,
                     match_type := some "rerank_discarded" }
          else
            { r with confidence := some s, match_type := some "rerank_verified" }) := by
  intro i r hi hg
  have hrmem : r ∈ df := List.getElem?_mem hi
  have hcand : isRerankCand r = true := hall r hrmem hg
  have hcount : df.countP (fun x => isRerankCand x && decide (x.group_id = some g)) =
      groupCount df g := by
    apply List.countP_congr
    intro x hx
    simp only [Bool.and_eq_true, decide_eq_true_eq]
    exact ⟨fun h => h.2, fun h => ⟨hall x hx h, h⟩⟩
  have hq : isRerankCand r = true ∧
      2 ≤ df.countP (fun x => isRerankCand x && decide (x.group_id = some g)) :=
    ⟨hcand, by rw [hcount]; exact h2⟩
  have hne : df.countP isRerankCand ≠ 0 := countP_true_of_getElem? hi hcand
  rw [rerankProcess, if_neg hne, List.getElem?_map, hi, Option.map_some']
  simp only [hg]
  rw [if_pos hq, hor]

/-- C7: in both adjudication stages an oracle failure (raised call, or —
for the scoring shape — an unparsable response) for one group leaves
every record of that group exactly as it was; records outside the failing
group are computed independently of that group's oracle answer; and both
stages, and the whole run, still complete, returning a frame of the
input's length. -/
theorem C7_fail_open_isolation :
    (∀ (oracle : String → Option ℚ) (df : List Record) (g : String),
        oracle g = none →
        ∀ (i : ℕ) (r : Record), df[i]? = some r → r.group_id = some g →
          (rerankProcess oracle df)[i]? = some r) ∧
    (∀ (o₁ o₂ : String → Option ℚ) (df : List Record) (g : String),
        (∀ g', g' ≠ g → o₁ g' = o₂ g') →
        ∀ (i : ℕ) (r : Record), df[i]? = some r → r.group_id ≠ some g →
          (rerankProcess o₁ df)[i]? = (rerankProcess o₂ df)[i]?) ∧
    (∀ (oracle : String → Option String) (df : List Record) (g : String),
        oracle g = none →
        ∀ (i : ℕ) (r : Record), df[i]? = some r → r.group_id = some g →
          (llmAssistedProcess oracle df)[i]? = some r) ∧
    (∀ (o₁ o₂ : String → Option String) (df : List Record) (g : String),
        (∀ g', g' ≠ g → o₁ g' = o₂ g') →
        ∀ (i : ℕ) (r : Record), df[i]? = some r → r.group_id ≠ some g →
          (llmAssistedProcess o₁ df)[i]? = (llmAssistedProcess o₂ df)[i]?) ∧
    (∀ (oracle : String → Option ℚ) (df : List Record),
        (rerankProcess oracle df).length = df.length) ∧
    (∀ (oracle : String → Option String) (df : List Record),
        (llmAssistedProcess oracle df).length = df.length) := by
  refine ⟨?_, ?_, ?_, ?_, ?_, ?_⟩
  · intro oracle df g hfail i r hi hg
    rw [rerankProcess]
    by_cases hz : df.countP isRerankCand = 0
    · rw [if_pos hz]; exact hi
    · rw [if_neg hz, List.getElem?_map, hi, Option.map_some']
      simp only [hg]
      by_cases hq : isRerankCand r = true ∧
          2 ≤ df.countP (fun x => isRerankCand x && decide (x.group_id = some g))
      · rw [if_pos hq, hfail]
      · rw [if_neg hq]
  · intro o₁ o₂ df g hag i r hi hg
    rw [rerankProcess, rerankProcess]
    by_cases hz : df.countP isRerankCand = 0
    · rw [if_pos hz, if_pos hz]
    · rw [if_neg hz, if_neg hz, List.getElem?_map, List.getElem?_map, hi,
        Option.map_some', Option.map_some']
      cases hgr : r.group_id with
      | none => rfl
      | some g' =>
        have hgg : g' ≠ g := fun h => hg (by rw [hgr, h])
        simp only [hag g' hgg]
  · intro oracle df g hfail i r hi hg
    rw [llmAssistedProcess]
    by_cases hz : df.countP (fun r => isAmbiguous r && decide (r.group_id ≠ none)) = 0
    · rw [if_pos hz]; exact hi
    · rw [if_neg hz, List.getElem?_map, hi, Option.map_some']
      simp only [hg]
      by_cases hq : 0 < df.countP
            (fun x => isAmbiguous x && decide (x.group_id = some g)) ∧
          2 ≤ groupCount df g
      · rw [if_pos hq, hfail]
      · rw [if_neg hq]
  · intro o₁ o₂ df g hag i r hi hg
    rw [llmAssistedProcess, llmAssistedProcess]
    by_cases hz : df.countP (fun r => isAmbiguous r && decide (r.group_id ≠ none)) = 0
    · rw [if_pos hz, if_pos hz]
    · rw [if_neg hz, if_neg hz, List.getElem?_map, List.getElem?_map, hi,
        Option.map_some', Option.map_some']
      cases hgr : r.group_id with
      | none => rfl
      | some g' =>
        have hgg : g' ≠ g := fun h => hg (by rw [hgr, h])
        simp only [hag g' hgg]
  · intro oracle df
    rw [rerankProcess]
    by_cases hz : df.countP isRerankCand = 0
    · rw [if_pos hz]
    · rw [if_neg hz, List.length_map]
  · intro oracle df
    rw [llmAssistedProcess]
    by_cases hz : df.countP (fun r => isAmbiguous r && decide (r.group_id ≠ none)) = 0
    · rw [if_pos hz]
    · rw [if_neg hz, List.length_map]

/-- A fuzzy group `G` of two records in the reranker gray area
(confidence 0.92), plus an ungrouped bystander record. -/
def dfGray : List Record :=
  [⟨none, none, some "a", none, some "G", some "fuzzy_hybrid", some 0.92, false⟩,
   ⟨none, none, some "b", none, some "G", some "fuzzy_hybrid", some 0.92, false⟩,
   freshRecord none none (some "c") none]

section
attribute [local semireducible] Rat.mul Rat.add Rat.sub Rat.inv Rat.ofScientific

theorem C6_rerank_overwrite_and_demote_witness :
    (rerankProcess (fun _ => some 0.6) dfGray)[0]? =
      some (if (0.6 : ℚ) < 0.8 then
          { (⟨none, none, some "a", none, some "G", some "fuzzy_hybrid",
              some 0.92, false⟩ : Record) with
              confidence := some (0.6 : ℚ), group_id := none,
              match_type := some "rerank_discarded" }
        else
          { (⟨none, none, some "a", none, some "G", some "fuzzy_hybrid",
              some 0.92, false⟩ : Record) with
              confidence := some (0.6 : ℚ),
              match_type := some "rerank_verified" }) :=
  C6_rerank_overwrite_and_demote (fun _ => some 0.6) dfGray "G" 0.6
    (by decide) (by decide) rfl 0
    ⟨none, none, some "a", none, some "G", some "fuzzy_hybrid", some 0.92, false⟩
    (by decide) (by decide)

theorem C7_fail_open_isolation_witness :
    (rerankProcess (fun _ => none) dfGray)[0]? =
      some ⟨none, none, some "a", none, some "G", some "fuzzy_hybrid",
        some 0.92, false⟩ ∧
    (llmAssistedProcess (fun _ => none) dfGray)[0]? =
      some ⟨none, none, some "a", none, some "G", some "fuzzy_hybrid",
        some 0.92, false⟩ ∧
    (rerankProcess (fun x => if x = "G" then none else some 0.5) dfGray)[2]? =
      (rerankProcess (fun x => if x = "G" then some 0.9 else some 0.5) dfGray)[2]? ∧
    (rerankProcess (fun _ => none) dfGray).length = dfGray.length := by
  refine ⟨?_, ?_, ?_, ?_⟩
  · exact C7_fail_open_isolation.1 (fun _ => none) dfGray "G" rfl 0
      ⟨none, none, some "a", none, some "G", some "fuzzy_hybrid", some 0.92, false⟩
      (by decide) (by decide)
  · exact C7_fail_open_isolation.2.2.1 (fun _ => none) dfGray "G" rfl 0
      ⟨none, none, some "a", none, some "G", some "fuzzy_hybrid", some 0.92, false⟩
      (by decide) (by decide)
  · exact C7_fail_open_isolation.2.1
      (fun x => if x = "G" then none else some 0.5)
      (fun x => if x = "G" then some 0.9 else some 0.5) dfGray "G"
      (fun g' hgg => by simp [hgg]) 2 (freshRecord none none (some "c") none)
      (by decide) (by decide)
  · exact C7_fail_open_isolation.2.2.2.2.1 (fun _ => none) dfGray

end

/-- An ambiguous group `g` of two `fuzzy_embedding` records with
confidence 0.8 (strictly between 0.7 and 0.9). -/
def dfAmb : List Record :=
  [⟨none, none, some "a", none, some "g", some "fuzzy_embedding", some 0.8, false⟩,
   ⟨none, none, some "b", none, some "g", some "fuzzy_embedding", some 0.8, false⟩]

section
attribute [local semireducible] Rat.mul Rat.add Rat.sub Rat.inv Rat.ofScientific

/-- C5 fails on the code: a binary adjudicator response containing
neither `yes` nor `no` (here `"maybe"`) falls into the `else` branch of
`LLMAssistedStep.process` (dedup_logic.py:262), which clears `group_id`
and sets `match_type = llm_discarded` for the whole group — the group's
state is changed, i.e. the missing keyword is treated as an implicit
"no", not as a per-group failure. -/
theorem C5_counterexample :
    hasSub "yes".data (pyLower "maybe").data = false ∧
    hasSub "no".data (pyLower "maybe").data = false ∧
    dfAmb.map (fun r => (r.group_id, r.match_type)) =
      [(some "g", some "fuzzy_embedding"), (some "g", some "fuzzy_embedding")] ∧
    ((llmAssistedProcess (fun _ => some "maybe") dfAmb).map
        (fun r => (r.group_id, r.match_type))) =
      [(none, some "llm_discarded"), (none, some "llm_discarded")] :=
  ⟨by decide, by decide, by decide, by decide⟩

end

/-- C5 (amended): for a group with an ambiguous member and at least two
members, only a raised adjudicator call leaves the group's state
unchanged; a returned text containing `yes` (case-insensitive) marks the
whole group `llm_matched`, and *any* other text — including one
containing neither keyword — clears `group_id` for all members and sets
`match_type = llm_discarded`, exactly as a `no` does. -/
theorem C5_amended_missing_keyword_discards (oracle : String → Option String)
    (df : List Record) (g : String)
    (hamb : 0 < df.countP (fun x => isAmbiguous x && decide (x.group_id = some g)))
    (h2 : 2 ≤ groupCount df g) :
    ∀ (i : ℕ) (r : Record), df[i]? = some r → r.group_id = some g →
      (∀ resp : String, oracle g = some resp →
        (llmAssistedProcess oracle df)[i]? =
          some (if hasSub "yes".data (pyLower resp).data = true then
              { r with match_type := some "llm_matched" }
            else
              { r with group_id := none, match_type := some "llm_discarded" })) ∧
      (oracle g = none → (llmAssistedProcess oracle df)[i]? = some r) := by
  intro i r hi hg
  obtain ⟨x, hxmem, hx⟩ := List.countP_pos_iff.1 hamb
  rw [Bool.and_eq_true, decide_eq_true_eq] at hx
  have hne : df.countP (fun r => isAmbiguous r && decide (r.group_id ≠ none)) ≠ 0 := by
    refine Nat.pos_iff_ne_zero.1 (List.countP_pos_iff.2 ⟨x, hxmem, ?_⟩)
    rw [Bool.and_eq_true, decide_eq_true_eq, hx.2]
    exact ⟨hx.1, by simp⟩
  have hmain : (llmAssistedProcess oracle df)[i]? =
      some (match oracle g with
        | none => r
        | some resp =>
          if hasSub "yes".data (pyLower resp).data = true then
            { r with match_type := some "llm_matched" }
          else
            { r with group_id := none, match_type := some "llm_discarded" }) := by
    rw [llmAssistedProcess, if_neg hne, List.getElem?_map, hi, Option.map_some']
    simp only [hg]
    rw [if_pos ⟨hamb, h2⟩]
  constructor
  · intro resp hor
    rw [hmain, hor]
  · intro hor
    rw [hmain, hor]

section
attribute [local semireducible] Rat.mul Rat.add Rat.sub Rat.inv Rat.ofScientific

theorem C5_amended_missing_keyword_discards_witness :
    (llmAssistedProcess (fun _ => some "unclear") dfAmb)[0]? =
      some (if hasSub "yes".data (pyLower "unclear").data = true then
          { (⟨none, none, some "a", none, some "g", some "fuzzy_embedding",
              some 0.8, false⟩ : Record) with
              match_type := some "llm_matched" }
        else
          { (⟨none, none, some "a", none, some "g", some "fuzzy_embedding",
              some 0.8, false⟩ : Record) with
              group_id := none, match_type := some "llm_discarded" }) :=
  (C5_amended_missing_keyword_discards (fun _ => some "unclear") dfAmb "g"
    (by decide) (by decide) 0
    ⟨none, none, some "a", none, some "g", some "fuzzy_embedding", some 0.8, false⟩
    (by decide) (by decide)).1 "unclear" rfl

end

/-! ### The dead `fuzzy_embedding` label (claim C10) -/

/-- The `review_required` flag of the record at position `i`. -/
def reviewAt (df : List Record) (i : ℕ) : Option Bool :=
  (df[i]?).map (fun r => r.review_required)

/-- No record carries the label the ambiguity-resolution and
review-flagging stages filter on. -/
def noFuzzyEmbedding (df : List Record) : Prop :=
  ∀ r ∈ df, r.match_type ≠ some "fuzzy_embedding"

/-- The `match_type` values the earlier pipeline stages can produce. -/
def allowedMatches (df : List Record) : Prop :=
  ∀ r ∈ df, r.match_type = none ∨ r.match_type = some "exact_item_code" ∨
    r.match_type = some "exact_barcode" ∨ r.match_type = some "fuzzy_hybrid" ∨
    r.match_type = some "rerank_verified" ∨ r.match_type = some "rerank_discarded"

lemma allowed_not_FE {r : Record}
    (h : r.match_type = none ∨ r.match_type = some "exact_item_code" ∨
      r.match_type = some "exact_barcode" ∨ r.match_type = some "fuzzy_hybrid" ∨
      r.match_type = some "rerank_verified" ∨
      r.match_type = some "rerank_discarded") :
    r.match_type ≠ some "fuzzy_embedding" := by
  rcases h with h | h | h | h | h | h <;> rw [h] <;> decide

lemma reviewAt_map {f : Record → Record}
    (hf : ∀ r, (f r).review_required = r.review_required) (df : List Record)
    (i : ℕ) : reviewAt (df.map f) i = reviewAt df i := by
  unfold reviewAt
  rw [List.getElem?_map]
  cases df[i]? with
  | none => rfl
  | some r => simp [hf]

lemma noFE_map {f : Record → Record}
    (hf : ∀ r, (f r).match_type = r.match_type ∨
      (f r).match_type ≠ some "fuzzy_embedding")
    {df : List Record} (h : noFuzzyEmbedding df) : noFuzzyEmbedding (df.map f) := by
  intro r' hr'
  obtain ⟨r, hr, hfr⟩ := List.mem_map.1 hr'
  rcases hf r with heq | hne
  · rw [← hfr, heq]; exact h r hr
  · rw [← hfr]; exact hne

lemma itemPass_reviewAt (df : List Record) (i : ℕ) :
    reviewAt (itemPass df) i = reviewAt df i := by
  rw [itemPass]
  apply reviewAt_map
  intro r
  rcases hic : r.item_code with _ | v
  · simp [hic]
  · simp only [hic]
    split <;> rfl

lemma itemPass_noFE {df : List Record} (h : noFuzzyEmbedding df) :
    noFuzzyEmbedding (itemPass df) := by
  rw [itemPass]
  refine noFE_map ?_ h
  intro r
  rcases hic : r.item_code with _ | v
  · left; simp [hic]
  · simp only [hic]
    split
    · right
      show some "exact_item_code" ≠ some "fuzzy_embedding"
      decide
    · left; rfl

lemma barcodePass_reviewAt (df : List Record) (i : ℕ) :
    reviewAt (barcodePass df) i = reviewAt df i := by
  rw [barcodePass]
  apply reviewAt_map
  intro r
  by_cases hg : r.group_id = none
  · simp only [if_pos hg]
    rcases hbc : r.barcode with _ | v
    · simp [hbc]
    · simp only [hbc]
      split <;> rfl
  · simp [if_neg hg]

lemma barcodePass_noFE {df : List Record} (h : noFuzzyEmbedding df) :
    noFuzzyEmbedding (barcodePass df) := by
  rw [barcodePass]
  refine noFE_map ?_ h
  intro r
  by_cases hg : r.group_id = none
  · simp only [if_pos hg]
    rcases hbc : r.barcode with _ | v
    · left; simp [hbc]
    · simp only [hbc]
      split
      · right
        show some "exact_barcode" ≠ some "fuzzy_embedding"
        decide
      · left; rfl
  · left; simp [if_neg hg]

lemma applyEvent_reviewAt (d : List Record) (e : WriteEvent) (i : ℕ) :
    reviewAt (applyEvent d e) i = reviewAt d i := by
  unfold applyEvent reviewAt
  rw [modifyAt_getElem?]
  by_cases h : e.targetOrig = i
  · rw [if_pos h]
    cases d[i]? <;> simp
  · rw [if_neg h]

lemma applyEvent_noFE {d : List Record} (h : noFuzzyEmbedding d) (e : WriteEvent) :
    noFuzzyEmbedding (applyEvent d e) := by
  intro r hr
  rcases mem_modifyAt _ _ _ _ hr with h' | ⟨r₀, _, hfr⟩
  · exact h r h'
  · rw [hfr]
    show some "fuzzy_hybrid" ≠ some "fuzzy_embedding"
    decide

lemma foldl_applyEvent_Q (Q : List Record → Prop)
    (hQ : ∀ d e, Q d → Q (applyEvent d e)) :
    ∀ (evs : List WriteEvent) (d : List Record), Q d → Q (evs.foldl applyEvent d) := by
  intro evs
  induction evs with
  | nil => intro d h; exact h
  | cons e evs ih => intro d h; exact ih _ (hQ d e h)

lemma fuzzyRun_df_Q (Q : List Record → Prop)
    (hQ : ∀ d e, Q d → Q (applyEvent d e)) (th : ℚ) (sim : ℕ → ℕ → ℚ) (c : ℕ)
    (df : List Record) (h : Q df) : Q (fuzzyMatchProcess th sim c df) := by
  rw [fuzzyMatchProcess, fuzzyRun_df_eq_applyLog]
  exact foldl_applyEvent_Q Q hQ _ df h

lemma fuzzy_reviewAt (th : ℚ) (sim : ℕ → ℕ → ℚ) (c : ℕ) (df : List Record)
    (i : ℕ) : reviewAt (fuzzyMatchProcess th sim c df) i = reviewAt df i := by
  have := fuzzyRun_df_Q (fun d => ∀ j, reviewAt d j = reviewAt df j)
    (fun d e hd j => by rw [applyEvent_reviewAt, hd j]) th sim c df (fun _ => rfl)
  exact this i

lemma fuzzy_noFE (th : ℚ) (sim : ℕ → ℕ → ℚ) (c : ℕ) {df : List Record}
    (h : noFuzzyEmbedding df) : noFuzzyEmbedding (fuzzyMatchProcess th sim c df) :=
  fuzzyRun_df_Q noFuzzyEmbedding (fun _ e hd => applyEvent_noFE hd e) th sim c df h

lemma rerank_reviewAt (oracle : String → Option ℚ) (df : List Record) (i : ℕ) :
    reviewAt (rerankProcess oracle df) i = reviewAt df i := by
  rw [rerankProcess]
  by_cases hz : df.countP isRerankCand = 0
  · rw [if_pos hz]
  · rw [if_neg hz]
    apply reviewAt_map
    intro r
    rcases hg : r.group_id with _ | g
    · simp [hg]
    · simp only [hg]
      split
      · cases oracle g with
        | none => rfl
        | some s =>
          dsimp only
          split <;> rfl
      · rfl

lemma rerank_noFE (oracle : String → Option ℚ) {df : List Record}
    (h : noFuzzyEmbedding df) : noFuzzyEmbedding (rerankProcess oracle df) := by
  rw [rerankProcess]
  by_cases hz : df.countP isRerankCand = 0
  · rw [if_pos hz]; exact h
  · rw [if_neg hz]
    refine noFE_map ?_ h
    intro r
    rcases hg : r.group_id with _ | g
    · left; simp [hg]
    · simp only [hg]
      split
      · cases oracle g with
        | none => left; rfl
        | some s =>
          dsimp only
          split
          · right
            show some "rerank_discarded" ≠ some "fuzzy_embedding"
            decide
          · right
            show some "rerank_verified" ≠ some "fuzzy_embedding"
            decide
      · left; rfl

lemma llm_reviewAt (oracle : String → Option String) (df : List Record) (i : ℕ) :
    reviewAt (llmAssistedProcess oracle df) i = reviewAt df i := by
  rw [llmAssistedProcess]
  by_cases hz : df.countP (fun r => isAmbiguous r && decide (r.group_id ≠ none)) = 0
  · rw [if_pos hz]
  · rw [if_neg hz]
    apply reviewAt_map
    intro r
    rcases hg : r.group_id with _ | g
    · simp [hg]
    · simp only [hg]
      split
      · cases oracle g with
        | none => rfl
        | some resp =>
          dsimp only
          split <;> rfl
      · rfl

lemma llm_noFE (oracle : String → Option String) {df : List Record}
    (h : noFuzzyEmbedding df) : noFuzzyEmbedding (llmAssistedProcess oracle df) := by
  rw [llmAssistedProcess]
  by_cases hz : df.countP (fun r => isAmbiguous r && decide (r.group_id ≠ none)) = 0
  · rw [if_pos hz]; exact h
  · rw [if_neg hz]
    refine noFE_map ?_ h
    intro r
    rcases hg : r.group_id with _ | g
    · left; simp [hg]
    · simp only [hg]
      split
      · cases oracle g with
        | none => left; rfl
        | some resp =>
          dsimp only
          split
          · right
            show some "llm_matched" ≠ some "fuzzy_embedding"
            decide
          · right
            show some "llm_discarded" ≠ some "fuzzy_embedding"
            decide
      · left; rfl

lemma humanReview_id_of_noFE {df : List Record} (h : noFuzzyEmbedding df) :
    humanReviewProcess df = df := by
  rw [humanReviewProcess]
  apply map_eq_self_of_eq
  intro r hr
  have hb : decide (r.match_type = some "fuzzy_embedding") = false := by
    simp [h r hr]
  rw [hb]
  simp

lemma sanitize_reviewAt (df : List Record) (i : ℕ) :
    reviewAt (sanitize df) i = reviewAt df i := by
  rw [sanitize]
  apply reviewAt_map
  intro r
  rcases hg : r.group_id with _ | g
  · simp [hg]
  · simp only [hg]
    split <;> rfl

lemma allowed_noFE {df : List Record} (h : allowedMatches df) :
    noFuzzyEmbedding df :=
  fun r hr => allowed_not_FE (h r hr)

lemma llm_id_of_allowed (oracle : String → Option String) {df : List Record}
    (h : allowedMatches df) : llmAssistedProcess oracle df = df := by
  have hz : df.countP (fun r => isAmbiguous r && decide (r.group_id ≠ none)) = 0 := by
    rw [List.countP_eq_zero]
    intro r hr
    have hne := allowed_not_FE (h r hr)
    simp [isAmbiguous, hne]
  rw [llmAssistedProcess, if_pos hz]

/-- C10: the label `fuzzy_embedding` filtered on by `LLMAssistedStep` and
`HumanReviewStep` is produced by no stage.  On a frame whose `match_type`
values are only those the earlier stages can produce (null,
`exact_item_code`, `exact_barcode`, `fuzzy_hybrid`, `rerank_verified`,
`rerank_discarded`), both stages return the frame completely unchanged
regardless of the adjudicator; and a full `DedupAgent.run` on a frame
carrying no `fuzzy_embedding` label never sets `review_required` on any
record — the flag of every position is exactly what it was in the
input. -/
theorem C10_fuzzy_embedding_label_dead (o : Oracles) (df : List Record) :
    (allowedMatches df →
      llmAssistedProcess o.binary df = df ∧ humanReviewProcess df = df) ∧
    (noFuzzyEmbedding df →
      ∀ i : ℕ, reviewAt (dedupAgentRun o df) i = reviewAt df i) := by
  constructor
  · intro h
    exact ⟨llm_id_of_allowed o.binary h, humanReview_id_of_noFE (allowed_noFE h)⟩
  · intro h i
    have h1 : noFuzzyEmbedding (exactMatchProcess df) :=
      barcodePass_noFE (itemPass_noFE h)
    have h2 := fuzzy_noFE 0.9 o.sim 5000 h1
    have h3 := rerank_noFE o.rerank h2
    have h4 := llm_noFE o.binary h3
    have hexact : reviewAt (exactMatchProcess df) i = reviewAt df i := by
      show reviewAt (barcodePass (itemPass df)) i = reviewAt df i
      rw [barcodePass_reviewAt, itemPass_reviewAt]
    show reviewAt (sanitize (humanReviewProcess (llmAssistedProcess o.binary
      (rerankProcess o.rerank (fuzzyMatchProcess 0.9 o.sim 5000
        (exactMatchProcess df)))))) i = reviewAt df i
    rw [sanitize_reviewAt, humanReview_id_of_noFE h4, llm_reviewAt,
      rerank_reviewAt, fuzzy_reviewAt, hexact]

theorem C10_fuzzy_embedding_label_dead_witness :
    (llmAssistedProcess trivialOracles.binary dfGray = dfGray ∧
      humanReviewProcess dfGray = dfGray) ∧
    reviewAt (dedupAgentRun trivialOracles dfGray) 0 = reviewAt dfGray 0 := by
  refine ⟨(C10_fuzzy_embedding_label_dead trivialOracles dfGray).1 ?_,
    (C10_fuzzy_embedding_label_dead trivialOracles dfGray).2 ?_ 0⟩
  · unfold allowedMatches
    decide
  · unfold noFuzzyEmbedding
    decide
